import Mathlib

/-- Python `\s` / `str.strip()` whitespace, ASCII range:
space, tab, newline, carriage return, vertical tab, form feed. -/
def pySpace (c : Char) : Bool :=
  c == ' ' || c == '\t' || c == '\n' || c == '\r' ||
  c == Char.ofNat 11 || c == Char.ofNat 12

/-- Python `\w` word character, ASCII range: `[a-zA-Z0-9_]`. -/
def pyWord (c : Char) : Bool :=
  c.isAlphanum || c == '_'

/-- Python `\W`, the complement of `\w`. -/
def pyNonWord (c : Char) : Bool := !pyWord c

/-- Counts whitespace-delimited tokens: the length of Python
`text.split()`.  The boolean flag records whether the previous
character was inside a word. -/
def countWordsAux : List Char → Bool → Nat
  | [], _ => 0
  | c :: cs, inWord =>
    if pySpace c then countWordsAux cs false
    else (if inWord then 0 else 1) + countWordsAux cs true

/-- `len(text.split())` of `src/ingest.py`. -/
def count_words (t : List Char) : Nat := countWordsAux t false

/-- Number of occurrences of `x` in `l` (Python `Counter` count of one key). -/
def count_occ [DecidableEq α] (x : α) : List α → Nat
  | [] => 0
  | y :: ys => (if y = x then 1 else 0) + count_occ x ys

/-- The distinct elements of `l` in order of first occurrence: the key
order of a Python `Counter`/`dict` built by left-to-right insertion. -/
def first_occ_keys [DecidableEq α] (l : List α) : List α :=
  l.foldl (fun ks x => if x ∈ ks then ks else ks ++ [x]) []

/-- `Counter(l).most_common(1)[0][0]`: among the keys in first-occurrence
order, the first one attaining the maximum count (Python's
`heapq.nlargest` keeps the earlier item on ties). -/
def most_common1 [DecidableEq α] (l : List α) : Option α :=
  match first_occ_keys l with
  | [] => none
  | k :: ks =>
    some (ks.foldl (fun best x => if count_occ x l > count_occ best l then x else best) k)

/-- A bounding box `(x0, y0, x1, y1)`; `y0` is the top edge and `y1`
the bottom edge, as in pymupdf rectangles. -/
structure Rect where
  x0 : ℚ
  y0 : ℚ
  x1 : ℚ
  y1 : ℚ
deriving DecidableEq

/-- `Rect.include_rect`: the rectangle union used by the block merger. -/
def rect_union (a b : Rect) : Rect :=
  ⟨min a.x0 b.x0, min a.y0 b.y0, max a.x1 b.x1, max a.y1 b.y1⟩

/-- One logical text block as produced by `extract_logical_text_blocks`
(the dict built at `src/ingest.py:191-199`). -/
structure BlockRec where
  page_number : Nat
  text : List Char
  bbox : Rect
  font_size : ℚ
  font_name : List Char
  is_bold : Bool
  color : Int
deriving DecidableEq

/-- `calculate_weighted_mean_font_size` (`src/ingest.py:10-20`):
character-weighted average font size; `0` for an empty collection or
zero total character length. -/
def calculate_weighted_mean_font_size (blocks : List BlockRec) : ℚ :=
  if blocks = [] then 0
  else
    let total : Nat := (blocks.map (fun b => b.text.length)).sum
    if total = 0 then 0
    else (blocks.map (fun b => b.font_size * (b.text.length : ℚ))).sum / (total : ℚ)

/-- The total character length used by `calculate_weighted_mean_font_size`. -/
def total_char_length (blocks : List BlockRec) : Nat :=
  (blocks.map (fun b => b.text.length)).sum

/-- `filter_long_blocks` (`src/ingest.py:22-39`): drop blocks whose word
count exceeds `maxWords` unless their font size exceeds 1.5 times the
weighted average. -/
def filter_long_blocks : List BlockRec → ℚ → Nat → List BlockRec
  | [], _, _ => []
  | b :: bs, wavg, maxWords =>
    let isLong := count_words b.text > maxWords
    let isLargeFont := b.font_size > wavg * (3/2)
    if ¬isLong ∨ isLargeFont then b :: filter_long_blocks bs wavg maxWords
    else filter_long_blocks bs wavg maxWords

/-- `Counter(colors).most_common(1)[0][0] if colors else 0` at
`src/ingest.py:51`. -/
def majority_color (blocks : List BlockRec) : Int :=
  match most_common1 (blocks.map (fun b => b.color)) with
  | some c => c
  | none => 0

/-- `filter_small_fonts_by_weighted_mean` (`src/ingest.py:41-64`): keep a
block iff its font size exceeds the weighted mean, or it is bold, or its
color differs from the majority color. -/
def filter_small_fonts_by_weighted_mean (blocks : List BlockRec) (wavg : ℚ) : List BlockRec :=
  match blocks with
  | [] => []
  | _ :: _ =>
    blocks.filter fun b =>
      decide (b.font_size > wavg) || b.is_bold || decide (b.color ≠ majority_color blocks)

/-- Python `int()` on a nonnegative-or-negative rational: truncation
toward zero. -/
def pyInt (q : ℚ) : Int :=
  if 0 ≤ q then ⌊q⌋ else -⌊-q⌋

/-- The distinct pages on which text `t` occurs, in first-occurrence
order: the page set `text_page_map[t]` of `find_repeating_texts`. -/
def distinct_pages_of (blocks : List BlockRec) (t : List Char) : List Nat :=
  first_occ_keys ((blocks.filter (fun b => decide (b.text = t))).map (fun b => b.page_number))

/-- `find_repeating_texts` (`src/ingest.py:66-86`): texts occurring on at
least `max 2 (int (page_count * ratio))` distinct pages; empty when the
block list is empty or the page count is zero. -/
def find_repeating_texts (blocks : List BlockRec) (pageCount : Nat) (ratio : ℚ) : List (List Char) :=
  if blocks = [] ∨ pageCount = 0 then []
  else
    let minPages0 : Int := pyInt ((pageCount : ℚ) * ratio)
    let minPages : Int := if minPages0 < 2 then 2 else minPages0
    (first_occ_keys (blocks.map (fun b => b.text))).filter
      (fun t => decide (minPages ≤ ((distinct_pages_of blocks t).length : Int)))

/-- `filter_header_footer_blocks` (`src/ingest.py:88-112`): drop a block
iff its text repeats across pages and its box touches the header or
footer band of the 792-unit nominal page. -/
def filter_header_footer_blocks (blocks : List BlockRec) (pageCount : Nat)
    (headerMargin footerMargin : ℚ) : List BlockRec :=
  match blocks with
  | [] => []
  | _ :: _ =>
    let repeatingTexts := find_repeating_texts blocks pageCount (1/2)
    if repeatingTexts = [] then blocks
    else
      let pageHeight : ℚ := 792
      let headerThreshold := pageHeight * headerMargin
      let footerThreshold := pageHeight * (1 - footerMargin)
      blocks.filter fun b =>
        decide (¬(b.text ∈ repeatingTexts ∧
          (b.bbox.y0 < headerThreshold ∨ b.bbox.y1 > footerThreshold)))

/-- Left strip: `List.dropWhile`. -/
def lstrip (p : Char → Bool) (l : List Char) : List Char := l.dropWhile p

/-- Right strip: drop the maximal suffix of characters satisfying `p`. -/
def rstrip (p : Char → Bool) (l : List Char) : List Char :=
  (l.reverse.dropWhile p).reverse

/-- Python `text.strip()`: remove leading and trailing whitespace. -/
def pstrip (l : List Char) : List Char := rstrip pySpace (lstrip pySpace l)

/-- `re.sub(r'\s+', ' ', text)`: each maximal whitespace run becomes a
single space.  The flag records whether the previous character was
whitespace (already replaced). -/
def collapseWsAux : List Char → Bool → List Char
  | [], _ => []
  | c :: cs, prevSpace =>
    if pySpace c then
      if prevSpace then collapseWsAux cs true else ' ' :: collapseWsAux cs true
    else c :: collapseWsAux cs false

/-- `re.sub(r'\s+', ' ', text)` of `src/ingest.py:121`. -/
def collapse_ws (l : List Char) : List Char := collapseWsAux l false

/-- `re.sub(r'^\W+|\W+$', '', text)` of `src/ingest.py:122`: remove the
maximal non-word prefix and the maximal non-word suffix. -/
def strip_nonword (l : List Char) : List Char :=
  rstrip pyNonWord (lstrip pyNonWord l)

/-- The whole text normalisation of `post_process_blocks`
(`src/ingest.py:120-122`). -/
def clean_text (t : List Char) : List Char :=
  strip_nonword (collapse_ws (pstrip t))

/-- `re.search('[a-zA-Z]', text)`: the text has an ASCII letter. -/
def has_alpha (t : List Char) : Bool := t.any Char.isAlpha

/-- `post_process_blocks` (`src/ingest.py:114-129`): clean each block's
text and keep the block only if the result is non-empty and contains an
alphabetic character. -/
def post_process_blocks : List BlockRec → List BlockRec
  | [] => []
  | b :: bs =>
    let t := clean_text b.text
    if t ≠ [] ∧ has_alpha t then { b with text := t } :: post_process_blocks bs
    else post_process_blocks bs

/-- The dominant style tuple `(round(size), font, is_bold, color)` of a
line (`src/ingest.py:161`). -/
structure LineStyle where
  size : Int
  font : List Char
  bold : Bool
  color : Int
deriving DecidableEq

/-- One aggregated rendering line (`src/ingest.py:170`). -/
structure LineRec where
  text : List Char
  bbox : Rect
  style : LineStyle
deriving DecidableEq

/-- A merged block before page-number attachment (`src/ingest.py:176`). -/
structure MergedBlock where
  text : List Char
  bbox : Rect
  style : LineStyle
deriving DecidableEq

/-- The bullet characters of the list-item pattern at
`src/ingest.py:181`.  The source file's character class holds the bytes
U+00E2, U+20AC, U+00A2 (a mojibake-encoded bullet) and the dash. -/
def is_bullet_char (c : Char) : Bool :=
  c == Char.ofNat 0xE2 || c == Char.ofNat 0x20AC || c == Char.ofNat 0xA2 || c == '-'

/-- `re.match(r'^\s*([..bullets..-]|(\d+\.))\s+', text)` as a boolean:
optional leading whitespace, then a bullet character or a nonempty digit
run followed by a dot, then at least one whitespace character. -/
def is_list_item (t : List Char) : Bool :=
  match t.dropWhile pySpace with
  | [] => false
  | c :: cs =>
    if is_bullet_char c then
      match cs with
      | d :: _ => pySpace d
      | [] => false
    else
      match (c :: cs).takeWhile Char.isDigit with
      | [] => false
      | _ :: _ =>
        match (c :: cs).dropWhile Char.isDigit with
        | d :: ds =>
          if d = '.' then
            match ds with
            | e :: _ => pySpace e
            | [] => false
          else false
        | [] => false

/-- The merge test of `src/ingest.py:179-182`: same dominant style as the
previous line, vertical gap (this line's top edge minus the previous
line's bottom edge) strictly below the proximity threshold, and not a
list item. -/
def merge_cond (th : ℚ) (prev cur : LineRec) : Bool :=
  decide (cur.style = prev.style) &&
  decide (cur.bbox.y0 - prev.bbox.y1 < th) &&
  !is_list_item cur.text

/-- The loop body of the block merger (`src/ingest.py:177-188`): `cur` is
the open block, `prev` the previously examined line.  On a merge the
line's text is appended after a single space and the bounding box grows
by rectangle union; otherwise the open block is emitted and a new one
started.  The trailing open block is always emitted. -/
def merge_loop (th : ℚ) : List LineRec → LineRec → MergedBlock → List MergedBlock
  | [], _, cur => [cur]
  | l :: rest, prev, cur =>
    if merge_cond th prev l then
      merge_loop th rest l ⟨cur.text ++ ' ' :: l.text, rect_union cur.bbox l.bbox, cur.style⟩
    else
      cur :: merge_loop th rest l ⟨l.text, l.bbox, l.style⟩

/-- The per-page block merger of `extract_logical_text_blocks`
(`src/ingest.py:174-188`). -/
def merge_page_lines (th : ℚ) : List LineRec → List MergedBlock
  | [] => []
  | l :: rest => merge_loop th rest l ⟨l.text, l.bbox, l.style⟩

/-- Joins line texts with a single space, as the repeated
`current_block["text"] += " " + current_line["text"]` does. -/
def join_with_space : List (List Char) → List Char
  | [] => []
  | [t] => t
  | t :: ts => t ++ ' ' :: join_with_space ts

/-- The block a maximal mergeable run of lines produces: texts joined by
single spaces, bounding boxes united left to right, style of the first
line. -/
def block_of_run : List LineRec → MergedBlock
  | [] => ⟨[], ⟨0, 0, 0, 0⟩, ⟨0, [], false, 0⟩⟩
  | l :: ls =>
    ⟨join_with_space ((l :: ls).map (fun x => x.text)),
     ls.foldl (fun r x => rect_union r x.bbox) l.bbox,
     l.style⟩

/-- A block extended by `engineer_layout_features` with its five derived
fields (`src/ingest.py:210-216`). -/
structure FeatBlock extends BlockRec where
  relative_font_size : ℚ
  is_bold_numeric : Nat
  char_count : Nat
  word_count : Nat
  vertical_position : ℚ
deriving DecidableEq

/-- The positive font sizes of the collection (`src/ingest.py:207`). -/
def positive_font_sizes (blocks : List BlockRec) : List ℚ :=
  (blocks.map (fun b => b.font_size)).filter (fun s => decide (s > 0))

/-- `engineer_layout_features` (`src/ingest.py:204-217`): empty when no
block has a positive font size; otherwise every block is extended with
`relative_font_size`, `is_bold_numeric`, `char_count`, `word_count` and
`vertical_position`, the modal font size being the most common positive
font size. -/
def engineer_layout_features (blocks : List BlockRec) : List FeatBlock :=
  match blocks with
  | [] => []
  | _ :: _ =>
    match most_common1 (positive_font_sizes blocks) with
    | none => []
    | some modal =>
      blocks.map fun b =>
        { b with
          relative_font_size := if modal > 0 then b.font_size / modal else 0
          is_bold_numeric := if b.is_bold then 1 else 0
          char_count := b.text.length
          word_count := count_words b.text
          vertical_position := if (792 : ℚ) > 0 then b.bbox.y0 / 792 else 0 }

/-- Modelled from the claim's words for C4's tie-break: the first color
whose running occurrence count, scanning the collection left to right,
reaches the highest overall count. -/
def max_count_over [DecidableEq α] (l : List α) : Nat :=
  (l.map (fun x => count_occ x l)).foldl max 0

/-- Modelled from the claim's words for C4's tie-break (continued):
scan with the list of already-seen elements, returning the first element
whose running count reaches `M`. -/
def first_reaching_aux [DecidableEq α] (M : Nat) : List α → List α → Option α
  | _, [] => none
  | seen, c :: rest =>
    if count_occ c (seen ++ [c]) = M then some c
    else first_reaching_aux M (seen ++ [c]) rest

/-- Modelled from the claim's words: "the first color reaching the
highest count". -/
def first_color_reaching_highest [DecidableEq α] (l : List α) : Option α :=
  first_reaching_aux (max_count_over l) [] l

/-- The claim-side repetition predicate of C2: the text occurs on at
least `max 2 ⌊pageCount / 2⌋` distinct pages. -/
def repeating_per_claim (blocks : List BlockRec) (pageCount : Nat) (t : List Char) : Prop :=
  max 2 ⌊(pageCount : ℚ) * (1/2)⌋ ≤ ((distinct_pages_of blocks t).length : Int)

/-- Minimum font size of a nonempty collection (0 for empty). -/
def min_font_size : List BlockRec → ℚ
  | [] => 0
  | b :: bs => bs.foldl (fun m x => min m x.font_size) b.font_size

/-- Maximum font size of a nonempty collection (0 for empty). -/
def max_font_size : List BlockRec → ℚ
  | [] => 0
  | b :: bs => bs.foldl (fun m x => max m x.font_size) b.font_size

/-- A 25-word text. -/
def ex3_text : List Char := (List.replicate 25 'a').intersperse ' '

/-- 25 words, font size equal to the weighted mean 10. -/
def ex3b1 : BlockRec := ⟨1, ex3_text, ⟨0, 0, 0, 0⟩, 10, [], false, 0⟩

/-- 25 words, font size 1.6 times the weighted mean 10. -/
def ex3b2 : BlockRec := ⟨1, ex3_text, ⟨0, 0, 0, 0⟩, (8/5) * 10, [], false, 0⟩

/-- 25 words, font size `1.6 * 0` for the degenerate weighted mean 0. -/
def cex3 : BlockRec := ⟨1, ex3_text, ⟨0, 0, 0, 0⟩, 0, [], false, 0⟩

/-- Two blocks: font 3 with two characters, font 6 with one character. -/
def ex5a : BlockRec := ⟨1, ['a', 'b'], ⟨0, 0, 0, 0⟩, 3, [], false, 0⟩

/-- Second block for the C5 witness. -/
def ex5b : BlockRec := ⟨1, ['c'], ⟨0, 0, 0, 0⟩, 6, [], false, 0⟩

/-- A nonempty block whose text is empty. -/
def cex5 : BlockRec := ⟨1, [], ⟨0, 0, 0, 0⟩, 5, [], false, 0⟩

/-- Blocks for the C4 witness: one plain, one bold, both majority color. -/
def ex4a : BlockRec := ⟨1, ['a'], ⟨0, 0, 0, 0⟩, 10, [], false, 5⟩

/-- The bold block kept by the small-font filter in the C4 witness. -/
def ex4b : BlockRec := ⟨1, ['b'], ⟨0, 0, 0, 0⟩, 10, [], true, 5⟩

/-- Four blocks with colors 0, 1, 1, 0: both colors occur twice, color 0
appears first, color 1 is the first to reach the highest running count. -/
def cx1 : BlockRec := ⟨1, ['a'], ⟨0, 0, 0, 0⟩, 10, [], false, 0⟩

/-- Second C4 counterexample block (color 1). -/
def cx2 : BlockRec := ⟨1, ['b'], ⟨0, 0, 0, 0⟩, 10, [], false, 1⟩

/-- Third C4 counterexample block (color 1). -/
def cx3 : BlockRec := ⟨1, ['c'], ⟨0, 0, 0, 0⟩, 10, [], false, 1⟩

/-- Fourth C4 counterexample block (color 0). -/
def cx4 : BlockRec := ⟨1, ['d'], ⟨0, 0, 0, 0⟩, 10, [], false, 0⟩

/-- The C4 counterexample collection. -/
def cexC4 : List BlockRec := [cx1, cx2, cx3, cx4]

/-- The font-size multiset {18, 18, 11, 11, 11} of the claim's example. -/
def ex6 : List BlockRec :=
  [⟨1, ['a'], ⟨0, 0, 0, 0⟩, 18, [], false, 0⟩,
   ⟨1, ['b'], ⟨0, 0, 0, 0⟩, 18, [], false, 0⟩,
   ⟨1, ['c'], ⟨0, 0, 0, 0⟩, 11, [], false, 0⟩,
   ⟨1, ['d'], ⟨0, 0, 0, 0⟩, 11, [], false, 0⟩,
   ⟨1, ['e'], ⟨0, 0, 0, 0⟩, 11, [], false, 0⟩]

/-- A block with font size 0; no positive font size exists. -/
def cex6blk : BlockRec := ⟨1, ['a'], ⟨0, 0, 0, 0⟩, 0, [], false, 0⟩

/-- Repeating header block, page 1. -/
def hb1 : BlockRec := ⟨1, ['H'], ⟨0, 0, 100, 10⟩, 9, [], false, 0⟩

/-- Repeating header block, page 2. -/
def hb2 : BlockRec := ⟨2, ['H'], ⟨0, 0, 100, 10⟩, 9, [], false, 0⟩

/-- Unique body block. -/
def bodyb : BlockRec := ⟨1, ['B'], ⟨0, 100, 100, 110⟩, 11, [], false, 0⟩

/-- A two-page collection with a repeated header and a unique body. -/
def ex2 : List BlockRec := [hb1, hb2, bodyb]

/-- C2 counterexample block, page 1, top of page, repeated text. -/
def chb1 : BlockRec := ⟨1, ['A'], ⟨0, 0, 100, 10⟩, 9, [], false, 0⟩

/-- C2 counterexample block, page 2, same text. -/
def chb2 : BlockRec := ⟨2, ['A'], ⟨0, 0, 100, 10⟩, 9, [], false, 0⟩

/-- The C2 counterexample collection (declared page count 0). -/
def cexH : List BlockRec := [chb1, chb2]

/-- No two adjacent whitespace characters: every whitespace run has
length at most one. -/
def no_double_space (l : List Char) : Prop :=
  List.Chain' (fun a b => ¬(pySpace a = true ∧ pySpace b = true)) l

/-- Raw text exercising all cleanup rules. -/
def ex8_text : List Char :=
  [' ', ' ', '#', '#', 'h', 'e', 'l', 'l', 'o', ' ', ' ', ' ',
   'w', 'o', 'r', 'l', 'd', '!', '!', ' ']

/-- The C8 witness input block. -/
def ex8blk : BlockRec := ⟨1, ex8_text, ⟨0, 0, 0, 0⟩, 10, [], false, 0⟩

/-- The cleaned C8 witness block: text becomes `hello world`. -/
def ex8out : BlockRec :=
  ⟨1, ['h', 'e', 'l', 'l', 'o', ' ', 'w', 'o', 'r', 'l', 'd'], ⟨0, 0, 0, 0⟩, 10, [], false, 0⟩

/-! ### Theorems -/

theorem filter_long_blocks_sublist (blocks : List BlockRec) (wavg : ℚ) (maxWords : Nat) :
    (filter_long_blocks blocks wavg maxWords).Sublist blocks := by
  induction blocks with
  | nil => simp [filter_long_blocks]
  | cons b bs ih =>
    rw [filter_long_blocks]
    split
    · exact ih.cons₂ b
    · exact ih.cons b

theorem filter_long_blocks_eq_filter (blocks : List BlockRec) (wavg : ℚ) (maxWords : Nat) :
    filter_long_blocks blocks wavg maxWords =
      blocks.filter (fun b =>
        decide (¬(count_words b.text > maxWords ∧ b.font_size ≤ wavg * (3/2)))) := by
  induction blocks with
  | nil => simp [filter_long_blocks]
  | cons b bs ih =>
    rw [filter_long_blocks, List.filter_cons]
    by_cases hlong : count_words b.text > maxWords
    · by_cases hlarge : b.font_size > wavg * (3/2)
      · rw [if_pos (Or.inr hlarge), if_pos, ih]
        simp [hlong, hlarge, not_le.mpr hlarge]
      · rw [if_neg, if_neg, ih]
        · simp [hlong, not_lt.mp hlarge]
        · push_neg
          exact ⟨hlong, not_lt.mp hlarge⟩
    · rw [if_pos (Or.inl hlong), if_pos, ih]
      simp [hlong]

theorem weighted_sum_lower (blocks : List BlockRec) (lo : ℚ)
    (h : ∀ b ∈ blocks, lo ≤ b.font_size) :
    lo * (total_char_length blocks : ℚ) ≤
      (blocks.map (fun b => b.font_size * (b.text.length : ℚ))).sum := by
  induction blocks with
  | nil => simp [total_char_length]
  | cons b bs ih =>
    have hb := h b (List.mem_cons_self b bs)
    have hrest := ih (fun x hx => h x (List.mem_cons_of_mem b hx))
    have hlen : (0 : ℚ) ≤ (b.text.length : ℚ) := by positivity
    have hone : lo * (b.text.length : ℚ) ≤ b.font_size * (b.text.length : ℚ) :=
      mul_le_mul_of_nonneg_right hb hlen
    simp only [total_char_length, List.map_cons, List.sum_cons] at *
    push_cast
    ring_nf
    push_cast at hrest
    nlinarith [hone, hrest]

theorem weighted_sum_upper (blocks : List BlockRec) (hi : ℚ)
    (h : ∀ b ∈ blocks, b.font_size ≤ hi) :
    (blocks.map (fun b => b.font_size * (b.text.length : ℚ))).sum ≤
      hi * (total_char_length blocks : ℚ) := by
  induction blocks with
  | nil => simp [total_char_length]
  | cons b bs ih =>
    have hb := h b (List.mem_cons_self b bs)
    have hrest := ih (fun x hx => h x (List.mem_cons_of_mem b hx))
    have hlen : (0 : ℚ) ≤ (b.text.length : ℚ) := by positivity
    have hone : b.font_size * (b.text.length : ℚ) ≤ hi * (b.text.length : ℚ) :=
      mul_le_mul_of_nonneg_right hb hlen
    simp only [total_char_length, List.map_cons, List.sum_cons] at *
    push_cast
    ring_nf
    push_cast at hrest
    nlinarith [hone, hrest]

theorem foldl_min_le_init (bs : List BlockRec) : ∀ init : ℚ,
    bs.foldl (fun m x => min m x.font_size) init ≤ init := by
  induction bs with
  | nil => simp
  | cons b bs ih =>
    intro init
    calc bs.foldl (fun m x => min m x.font_size) (min init b.font_size) ≤
        min init b.font_size := ih _
      _ ≤ init := min_le_left _ _

theorem foldl_min_le_mem (bs : List BlockRec) : ∀ (init : ℚ), ∀ b ∈ bs,
    bs.foldl (fun m x => min m x.font_size) init ≤ b.font_size := by
  induction bs with
  | nil => simp
  | cons x bs ih =>
    intro init b hb
    rcases List.mem_cons.mp hb with rfl | hb
    · calc bs.foldl (fun m y => min m y.font_size) (min init b.font_size) ≤
          min init b.font_size := foldl_min_le_init bs _
        _ ≤ b.font_size := min_le_right _ _
    · exact ih _ b hb

theorem min_font_size_le (blocks : List BlockRec) (hne : blocks ≠ []) :
    ∀ b ∈ blocks, min_font_size blocks ≤ b.font_size := by
  match blocks with
  | b0 :: bs =>
    intro b hb
    rcases List.mem_cons.mp hb with rfl | hb
    · exact foldl_min_le_init bs _
    · exact foldl_min_le_mem bs _ b hb

theorem init_le_foldl_max (bs : List BlockRec) : ∀ init : ℚ,
    init ≤ bs.foldl (fun m x => max m x.font_size) init := by
  induction bs with
  | nil => simp
  | cons b bs ih =>
    intro init
    calc init ≤ max init b.font_size := le_max_left _ _
      _ ≤ bs.foldl (fun m x => max m x.font_size) (max init b.font_size) := ih _

theorem mem_le_foldl_max (bs : List BlockRec) : ∀ (init : ℚ), ∀ b ∈ bs,
    b.font_size ≤ bs.foldl (fun m x => max m x.font_size) init := by
  induction bs with
  | nil => simp
  | cons x bs ih =>
    intro init b hb
    rcases List.mem_cons.mp hb with rfl | hb
    · calc b.font_size ≤ max init b.font_size := le_max_right _ _
        _ ≤ bs.foldl (fun m y => max m y.font_size) (max init b.font_size) :=
          init_le_foldl_max bs _
    · exact ih _ b hb

theorem le_max_font_size (blocks : List BlockRec) (hne : blocks ≠ []) :
    ∀ b ∈ blocks, b.font_size ≤ max_font_size blocks := by
  match blocks with
  | b0 :: bs =>
    intro b hb
    rcases List.mem_cons.mp hb with rfl | hb
    · exact init_le_foldl_max bs _
    · exact mem_le_foldl_max bs _ b hb

/-- C9: each of the header/footer, long-block, and small-font filters
returns a sublist of its input: surviving blocks are unchanged in every
field and keep their relative order; only membership shrinks. -/
theorem C9_filters_are_sublists :
    (∀ (blocks : List BlockRec) (wavg : ℚ) (maxWords : Nat),
      (filter_long_blocks blocks wavg maxWords).Sublist blocks) ∧
    (∀ (blocks : List BlockRec) (wavg : ℚ),
      (filter_small_fonts_by_weighted_mean blocks wavg).Sublist blocks) ∧
    (∀ (blocks : List BlockRec) (pageCount : Nat) (hm fm : ℚ),
      (filter_header_footer_blocks blocks pageCount hm fm).Sublist blocks) := by
  refine ⟨filter_long_blocks_sublist, ?_, ?_⟩
  · intro blocks wavg
    match blocks with
    | [] => simp [filter_small_fonts_by_weighted_mean]
    | b :: bs =>
      rw [filter_small_fonts_by_weighted_mean]
      exact List.filter_sublist _
  · intro blocks pageCount hm fm
    match blocks with
    | [] => simp [filter_header_footer_blocks]
    | b :: bs =>
      rw [filter_header_footer_blocks]
      split
      · exact List.Sublist.refl _
      · exact List.filter_sublist _

/-- C3 (amended): the long-block filter removes a block iff its word
count exceeds 20 and its font size does not exceed `weighted_mean * 1.5`;
the two concrete instances (25 words at the mean removed, 25 words at
1.6 times the mean kept) hold for every positive weighted mean. -/
theorem C3_long_block_filter :
    (∀ (blocks : List BlockRec) (wavg : ℚ) (b : BlockRec),
      b ∈ filter_long_blocks blocks wavg 20 ↔
        b ∈ blocks ∧ ¬(count_words b.text > 20 ∧ b.font_size ≤ wavg * (3/2))) ∧
    (∀ wavg : ℚ, 0 < wavg → ∀ b : BlockRec, count_words b.text = 25 →
      b.font_size = wavg → filter_long_blocks [b] wavg 20 = []) ∧
    (∀ wavg : ℚ, 0 < wavg → ∀ b : BlockRec, count_words b.text = 25 →
      b.font_size = (8/5) * wavg → filter_long_blocks [b] wavg 20 = [b]) := by
  refine ⟨?_, ?_, ?_⟩
  · intro blocks wavg b
    rw [filter_long_blocks_eq_filter, List.mem_filter]
    simp only [decide_eq_true_eq]
  · intro wavg hw b hwords hfs
    rw [filter_long_blocks, filter_long_blocks]
    rw [if_neg]
    push_neg
    constructor
    · rw [hwords]; omega
    · rw [hfs]; linarith
  · intro wavg hw b hwords hfs
    rw [filter_long_blocks, filter_long_blocks]
    rw [if_pos]
    right
    rw [hfs]
    linarith

/-- C5 (amended): for a non-empty block collection with positive total
character length, the character-weighted mean font size lies between the
minimum and maximum block font sizes. -/
theorem C5_weighted_mean_in_range (blocks : List BlockRec) (hne : blocks ≠ [])
    (hlen : 0 < total_char_length blocks) :
    min_font_size blocks ≤ calculate_weighted_mean_font_size blocks ∧
      calculate_weighted_mean_font_size blocks ≤ max_font_size blocks := by
  have htotQ : (0 : ℚ) < (total_char_length blocks : ℚ) := by exact_mod_cast hlen
  rw [calculate_weighted_mean_font_size, if_neg hne]
  simp only [show ((blocks.map (fun b => b.text.length)).sum) = total_char_length blocks from rfl]
  rw [if_neg hlen.ne']
  constructor
  · rw [le_div_iff₀ htotQ]
    exact weighted_sum_lower blocks _ (min_font_size_le blocks hne)
  · rw [div_le_iff₀ htotQ]
    exact weighted_sum_upper blocks _ (le_max_font_size blocks hne)

theorem C3_witness :
    filter_long_blocks [ex3b1] 10 20 = [] ∧ filter_long_blocks [ex3b2] 10 20 = [ex3b2] :=
  ⟨C3_long_block_filter.2.1 10 (by decide) ex3b1 (by decide) rfl,
   C3_long_block_filter.2.2 10 (by decide) ex3b2 (by decide) rfl⟩

/-- C3 counterexample: at weighted mean 0 a block with 25 words and font
size `1.6 *` the weighted mean is removed, not kept, so the claim's
second instance fails as universally stated. -/
theorem C3_counterexample :
    count_words cex3.text = 25 ∧ cex3.font_size = (8/5) * 0 ∧
      filter_long_blocks [cex3] 0 20 = [] := by
  refine ⟨by decide, by norm_num [cex3], ?_⟩
  rw [filter_long_blocks, filter_long_blocks, if_neg]
  push_neg
  constructor
  · have h : count_words cex3.text = 25 := by decide
    omega
  · norm_num [cex3]

theorem C5_witness :
    min_font_size [ex5a, ex5b] ≤ calculate_weighted_mean_font_size [ex5a, ex5b] ∧
      calculate_weighted_mean_font_size [ex5a, ex5b] ≤ max_font_size [ex5a, ex5b] :=
  C5_weighted_mean_in_range [ex5a, ex5b] (by decide) (by decide)

/-- C5 counterexample: a non-empty collection with zero total character
length has weighted mean 0, strictly below its minimum font size 5. -/
theorem C5_counterexample :
    calculate_weighted_mean_font_size [cex5] = 0 ∧ min_font_size [cex5] = 5 ∧
      ¬(min_font_size [cex5] ≤ calculate_weighted_mean_font_size [cex5]) := by
  decide

theorem mem_foldl_keys [DecidableEq α] (x : α) :
    ∀ (l acc : List α),
      x ∈ l.foldl (fun ks y => if y ∈ ks then ks else ks ++ [y]) acc ↔ x ∈ acc ∨ x ∈ l := by
  intro l
  induction l with
  | nil => intro acc; simp
  | cons y l ih =>
    intro acc
    rw [List.foldl_cons, ih]
    by_cases hy : y ∈ acc
    · simp only [if_pos hy, List.mem_cons]
      constructor
      · tauto
      · rintro (h | rfl | h)
        · exact Or.inl h
        · exact Or.inl hy
        · exact Or.inr h
    · simp only [if_neg hy, List.mem_append, List.mem_singleton, List.mem_cons]
      tauto

theorem mem_first_occ_keys [DecidableEq α] (x : α) (l : List α) :
    x ∈ first_occ_keys l ↔ x ∈ l := by
  rw [first_occ_keys, mem_foldl_keys]
  simp

theorem foldl_argmax_decomp (cnt : α → Nat) :
    ∀ (ks : List α) (k : α), ∃ pre post,
      k :: ks = pre ++ (ks.foldl (fun b x => if cnt x > cnt b then x else b) k) :: post ∧
      (∀ x ∈ pre, cnt x < cnt (ks.foldl (fun b x => if cnt x > cnt b then x else b) k)) ∧
      (∀ x ∈ post, cnt x ≤ cnt (ks.foldl (fun b x => if cnt x > cnt b then x else b) k)) := by
  intro ks
  induction ks with
  | nil => exact fun k => ⟨[], [], rfl, by simp, by simp⟩
  | cons x ks ih =>
    intro k
    rw [List.foldl_cons]
    by_cases hx : cnt x > cnt k
    · rw [if_pos hx]
      obtain ⟨pre, post, heq, hpre, hpost⟩ := ih x
      have hxF : cnt x ≤ cnt (ks.foldl (fun b y => if cnt y > cnt b then y else b) x) := by
        cases pre with
        | nil =>
          injection heq with h1 h2
          rw [← h1]
        | cons p pre' =>
          rw [List.cons_append] at heq
          injection heq with h1 h2
          exact (hpre x (h1 ▸ List.mem_cons_self p pre')).le
      refine ⟨k :: pre, post, ?_, ?_, hpost⟩
      · rw [List.cons_append, ← heq]
      · intro y hy
        rcases List.mem_cons.mp hy with rfl | hy
        · exact lt_of_lt_of_le hx hxF
        · exact hpre y hy
    · rw [if_neg hx]
      push_neg at hx
      obtain ⟨pre, post, heq, hpre, hpost⟩ := ih k
      cases pre with
      | nil =>
        injection heq with h1 h2
        refine ⟨[], x :: ks, ?_, by simp, ?_⟩
        · rw [List.nil_append, ← h1]
        · intro y hy
          rcases List.mem_cons.mp hy with rfl | hy
          · rw [← h1]; exact hx
          · rw [← h2] at hpost
            exact hpost y hy
      | cons p pre' =>
        rw [List.cons_append] at heq
        injection heq with h1 h2
        refine ⟨k :: x :: pre', post, ?_, ?_, hpost⟩
        · rw [List.cons_append, List.cons_append, ← h2]
        · intro y hy
          rcases List.mem_cons.mp hy with rfl | hy
          · exact h1 ▸ hpre p (List.mem_cons_self p pre')
          · rcases List.mem_cons.mp hy with rfl | hy
            · exact lt_of_le_of_lt hx (h1 ▸ hpre p (List.mem_cons_self p pre'))
            · exact hpre y (List.mem_cons_of_mem p hy)

theorem most_common1_eq_some [DecidableEq α] {l : List α} {m : α}
    (h : most_common1 l = some m) :
    ∃ pre post, first_occ_keys l = pre ++ m :: post ∧
      (∀ x ∈ pre, count_occ x l < count_occ m l) ∧
      (∀ x ∈ post, count_occ x l ≤ count_occ m l) := by
  rw [most_common1] at h
  match hk : first_occ_keys l with
  | [] => rw [hk] at h; exact absurd h (by simp)
  | k :: ks =>
    rw [hk] at h
    have h' := Option.some.inj h
    obtain ⟨pre, post, heq, hpre, hpost⟩ :=
      foldl_argmax_decomp (fun x => count_occ x l) ks k
    rw [h'] at heq hpre hpost
    exact ⟨pre, post, hk ▸ heq, hpre, hpost⟩

theorem most_common1_spec [DecidableEq α] {l : List α} {m : α}
    (h : most_common1 l = some m) :
    m ∈ l ∧ ∀ x ∈ l, count_occ x l ≤ count_occ m l := by
  obtain ⟨pre, post, heq, hpre, hpost⟩ := most_common1_eq_some h
  constructor
  · rw [← mem_first_occ_keys m l, heq]
    simp
  · intro x hx
    rw [← mem_first_occ_keys x l, heq] at hx
    rcases List.mem_append.mp hx with h1 | h2
    · exact (hpre x h1).le
    · rcases List.mem_cons.mp h2 with rfl | h3
      · exact le_refl _
      · exact hpost x h3

theorem most_common1_isSome [DecidableEq α] {l : List α} (h : l ≠ []) :
    ∃ m, most_common1 l = some m := by
  match hk : first_occ_keys l with
  | [] =>
    exfalso
    match l, h with
    | x :: l', _ =>
      have : x ∈ first_occ_keys (x :: l') := (mem_first_occ_keys x _).mpr (List.mem_cons_self x l')
      rw [hk] at this
      exact absurd this (List.not_mem_nil x)
  | k :: ks =>
    exact ⟨ks.foldl (fun best x => if count_occ x l > count_occ best l then x else best) k,
      by rw [most_common1, hk]⟩

theorem filter_small_fonts_cons (b0 : BlockRec) (bs : List BlockRec) (wavg : ℚ) :
    filter_small_fonts_by_weighted_mean (b0 :: bs) wavg =
      (b0 :: bs).filter (fun b => decide (b.font_size > wavg) || b.is_bold ||
        decide (b.color ≠ majority_color (b0 :: bs))) := rfl

/-- C4 (amended): the small/ordinary-font filter keeps a block iff its
font size exceeds the weighted mean, or it is bold, or its color differs
from the majority color; the majority color is a color of maximal
occurrence count, and among the colors of maximal count it is the one
whose FIRST OCCURRENCE in the block order is earliest (every color
listed before it in first-occurrence order has strictly smaller count). -/
theorem C4_small_font_filter (blocks : List BlockRec) (wavg : ℚ) (hne : blocks ≠ []) :
    (∀ b, b ∈ filter_small_fonts_by_weighted_mean blocks wavg ↔
      b ∈ blocks ∧ (wavg < b.font_size ∨ b.is_bold = true ∨
        b.color ≠ majority_color blocks)) ∧
    ∃ pre post,
      first_occ_keys (blocks.map (fun b => b.color)) =
        pre ++ majority_color blocks :: post ∧
      (∀ c ∈ pre, count_occ c (blocks.map (fun b => b.color)) <
        count_occ (majority_color blocks) (blocks.map (fun b => b.color))) ∧
      (∀ c ∈ post, count_occ c (blocks.map (fun b => b.color)) ≤
        count_occ (majority_color blocks) (blocks.map (fun b => b.color))) := by
  have hcolors : blocks.map (fun b => b.color) ≠ [] := by
    match blocks, hne with
    | b :: bs, _ => simp
  obtain ⟨m, hm⟩ := most_common1_isSome hcolors
  have hmaj : majority_color blocks = m := by rw [majority_color, hm]
  constructor
  · intro b
    match blocks, hne with
    | b0 :: bs, _ =>
      rw [filter_small_fonts_cons, List.mem_filter]
      simp only [Bool.or_eq_true, decide_eq_true_eq, gt_iff_lt]
      tauto
  · rw [hmaj]
    exact most_common1_eq_some hm

theorem C4_witness : ex4b ∈ filter_small_fonts_by_weighted_mean [ex4a, ex4b] 10 :=
  ((C4_small_font_filter [ex4a, ex4b] 10 (by decide)).1 ex4b).mpr
    ⟨by decide, Or.inr (Or.inl rfl)⟩

/-- C4 counterexample: under the claim's tie-break ("the first color
reaching the highest count") the majority color of `cexC4` is 1, so the
claim says the plain color-0 block `cx1` is kept (its color differs from
1); the code's `Counter.most_common` tie-break picks color 0 and drops
`cx1`. -/
theorem C4_counterexample :
    first_color_reaching_highest (cexC4.map (fun b => b.color)) = some 1 ∧
    cx1.color ≠ (1 : Int) ∧ cx1 ∈ cexC4 ∧ ¬(10 < cx1.font_size) ∧
    cx1.is_bold = false ∧
    cx1 ∉ filter_small_fonts_by_weighted_mean cexC4 10 := by
  decide

theorem list_map_ext {α β : Type} {f g : α → β} :
    ∀ l : List α, (∀ a ∈ l, f a = g a) → l.map f = l.map g := by
  intro l
  induction l with
  | nil => intro _; rfl
  | cons x l ih =>
    intro h
    simp only [List.map_cons]
    rw [h x (List.mem_cons_self x l), ih (fun a ha => h a (List.mem_cons_of_mem x ha))]

theorem engineer_eq (b : BlockRec) (bs : List BlockRec) :
    engineer_layout_features (b :: bs) =
      match most_common1 (positive_font_sizes (b :: bs)) with
      | none => []
      | some modal =>
        (b :: bs).map fun x =>
          { x with
            relative_font_size := if modal > 0 then x.font_size / modal else 0
            is_bold_numeric := if x.is_bold then 1 else 0
            char_count := x.text.length
            word_count := count_words x.text
            vertical_position := if (792 : ℚ) > 0 then x.bbox.y0 / 792 else 0 } := rfl

theorem positive_font_sizes_pos {blocks : List BlockRec} {s : ℚ}
    (h : s ∈ positive_font_sizes blocks) : 0 < s := by
  rw [positive_font_sizes] at h
  have := List.of_mem_filter h
  exact of_decide_eq_true this

theorem engineer_rel_map (blocks : List BlockRec)
    (h : positive_font_sizes blocks ≠ []) :
    ∃ modal, most_common1 (positive_font_sizes blocks) = some modal ∧
      0 < modal ∧ modal ∈ positive_font_sizes blocks ∧
      (∀ s ∈ positive_font_sizes blocks,
        count_occ s (positive_font_sizes blocks) ≤
          count_occ modal (positive_font_sizes blocks)) ∧
      (engineer_layout_features blocks).map (fun fb => fb.relative_font_size) =
        blocks.map (fun b => b.font_size / modal) := by
  obtain ⟨modal, hm⟩ := most_common1_isSome h
  obtain ⟨hmem, hmax⟩ := most_common1_spec hm
  have hpos : 0 < modal := positive_font_sizes_pos hmem
  refine ⟨modal, hm, hpos, hmem, hmax, ?_⟩
  match blocks, h with
  | b :: bs, _ =>
    rw [engineer_eq, hm, List.map_map]
    apply list_map_ext
    intro x _
    simp only [Function.comp_apply]
    rw [if_pos hpos]

/-- C6 (amended): each block's `relative_font_size` is its font size
divided by the modal (most frequent) positive font size; when NO block
has a positive font size the function returns the empty collection
rather than assigning 0; in the example multiset {18,18,11,11,11} the
modal size is 11 and the size-18 block gets 18/11 ≈ 1.636. -/
theorem C6_relative_font_size :
    (∀ blocks : List BlockRec, positive_font_sizes blocks = [] →
      engineer_layout_features blocks = []) ∧
    (∀ blocks : List BlockRec, positive_font_sizes blocks ≠ [] →
      ∃ modal, most_common1 (positive_font_sizes blocks) = some modal ∧
        0 < modal ∧ modal ∈ positive_font_sizes blocks ∧
        (∀ s ∈ positive_font_sizes blocks,
          count_occ s (positive_font_sizes blocks) ≤
            count_occ modal (positive_font_sizes blocks)) ∧
        (engineer_layout_features blocks).map (fun fb => fb.relative_font_size) =
          blocks.map (fun b => b.font_size / modal)) ∧
    (most_common1 (positive_font_sizes ex6) = some 11 ∧
      ((engineer_layout_features ex6).map (fun fb => fb.relative_font_size)).head? =
        some (18 / 11)) := by
  refine ⟨?_, engineer_rel_map, ?_, ?_⟩
  · intro blocks h
    match blocks with
    | [] => rfl
    | b :: bs =>
      rw [engineer_eq, h]
      rfl
  · decide
  · obtain ⟨modal, hm, _, _, _, hmap⟩ := engineer_rel_map ex6 (by decide)
    have h11 : modal = 11 := by
      have : most_common1 (positive_font_sizes ex6) = some 11 := by decide
      rw [this] at hm
      exact (Option.some.inj hm).symm
    rw [hmap, h11]
    rfl

theorem C6_witness :
    positive_font_sizes ex6 ≠ [] ∧
    (∃ modal, most_common1 (positive_font_sizes ex6) = some modal ∧
      0 < modal ∧ modal ∈ positive_font_sizes ex6 ∧
      (∀ s ∈ positive_font_sizes ex6,
        count_occ s (positive_font_sizes ex6) ≤
          count_occ modal (positive_font_sizes ex6)) ∧
      (engineer_layout_features ex6).map (fun fb => fb.relative_font_size) =
        ex6.map (fun b => b.font_size / modal)) :=
  ⟨by decide, C6_relative_font_size.2.1 ex6 (by decide)⟩

/-- C6 counterexample: with no positive font size the code returns an
EMPTY collection — the input block is dropped, not given
`relative_font_size = 0` as the claim states. -/
theorem C6_counterexample :
    engineer_layout_features [cex6blk] = [] ∧ ([cex6blk] : List BlockRec).length = 1 := by
  refine ⟨?_, rfl⟩
  rw [engineer_eq, show most_common1 (positive_font_sizes [cex6blk]) = none from by decide]

/-- C10: when some block has a positive font size, feature engineering
returns the same blocks in the same order; the base record (page number,
text, bounding box, font size, font name, bold flag, color) of every
output block equals the corresponding input block, the five derived
fields being the only additions (`FeatBlock` extends `BlockRec` by
exactly those five fields). -/
theorem C10_engineer_preserves_blocks (blocks : List BlockRec)
    (h : positive_font_sizes blocks ≠ []) :
    (engineer_layout_features blocks).map (fun fb => fb.toBlockRec) = blocks := by
  match blocks, h with
  | b :: bs, hh =>
    obtain ⟨modal, hm⟩ := most_common1_isSome hh
    rw [engineer_eq, hm, List.map_map]
    have : ((fun fb : FeatBlock => fb.toBlockRec) ∘ fun x : BlockRec =>
        ({ x with
          relative_font_size := if modal > 0 then x.font_size / modal else 0
          is_bold_numeric := if x.is_bold then 1 else 0
          char_count := x.text.length
          word_count := count_words x.text
          vertical_position := if (792 : ℚ) > 0 then x.bbox.y0 / 792 else 0 } : FeatBlock)) =
        fun x : BlockRec => x := rfl
    rw [this, List.map_id']

theorem C10_witness :
    (engineer_layout_features ex6).map (fun fb => fb.toBlockRec) = ex6 :=
  C10_engineer_preserves_blocks ex6 (by decide)

theorem filter_hf_cons (b0 : BlockRec) (bs : List BlockRec) (pageCount : Nat)
    (hm fm : ℚ) :
    filter_header_footer_blocks (b0 :: bs) pageCount hm fm =
      if find_repeating_texts (b0 :: bs) pageCount (1/2) = [] then b0 :: bs
      else (b0 :: bs).filter fun b =>
        decide (¬(b.text ∈ find_repeating_texts (b0 :: bs) pageCount (1/2) ∧
          (b.bbox.y0 < 792 * hm ∨ b.bbox.y1 > 792 * (1 - fm)))) := rfl

theorem mem_find_repeating (blocks : List BlockRec) (pageCount : Nat) (t : List Char) :
    t ∈ find_repeating_texts blocks pageCount (1/2) ↔
      (blocks ≠ [] ∧ pageCount ≠ 0 ∧ t ∈ blocks.map (fun b => b.text) ∧
        max 2 ⌊(pageCount : ℚ) * (1/2)⌋ ≤ ((distinct_pages_of blocks t).length : Int)) := by
  rw [find_repeating_texts]
  by_cases hg : blocks = [] ∨ pageCount = 0
  · rw [if_pos hg]
    simp only [List.not_mem_nil, false_iff]
    rintro ⟨h1, h2, -, -⟩
    tauto
  · rw [if_neg hg]
    push_neg at hg
    have hpy : pyInt ((pageCount : ℚ) * (1/2)) = ⌊(pageCount : ℚ) * (1/2)⌋ := by
      rw [pyInt, if_pos (by positivity)]
    have hmax : (if pyInt ((pageCount : ℚ) * (1/2)) < 2 then (2 : Int)
        else pyInt ((pageCount : ℚ) * (1/2))) = max 2 ⌊(pageCount : ℚ) * (1/2)⌋ := by
      rw [hpy]
      rcases lt_or_le (⌊(pageCount : ℚ) * (1/2)⌋) 2 with h | h
      · rw [if_pos h, max_eq_left h.le]
      · rw [if_neg (not_lt.mpr h), max_eq_right h]
    simp only [List.mem_filter, mem_first_occ_keys, decide_eq_true_eq, hmax]
    tauto

/-- C2 (amended): for a positive page count the header/footer filter
removes a block iff its text occurs on at least
`max 2 ⌊page_count * 0.5⌋` distinct pages and its top edge lies in the
header band or its bottom edge in the footer band of the 792-unit page;
a block whose text occurs on exactly one distinct page is never removed.
(When the page count is 0 the code removes nothing, including blocks the
claim's repetition rule would mark as repeating.) -/
theorem C2_header_footer_filter (blocks : List BlockRec) (pageCount : Nat)
    (hpc : 1 ≤ pageCount) :
    (∀ b, b ∈ filter_header_footer_blocks blocks pageCount (12/100) (12/100) ↔
      b ∈ blocks ∧ ¬(repeating_per_claim blocks pageCount b.text ∧
        (b.bbox.y0 < 792 * (12/100) ∨ b.bbox.y1 > 792 * (1 - 12/100)))) ∧
    (∀ b ∈ blocks, (distinct_pages_of blocks b.text).length = 1 →
      b ∈ filter_header_footer_blocks blocks pageCount (12/100) (12/100)) := by
  have key : ∀ b : BlockRec, b ∈ blocks →
      (b.text ∈ find_repeating_texts blocks pageCount (1/2) ↔
        repeating_per_claim blocks pageCount b.text) := by
    intro b hb
    rw [mem_find_repeating]
    have hne : blocks ≠ [] := by
      rintro rfl
      exact absurd hb (List.not_mem_nil b)
    have ht : b.text ∈ blocks.map (fun x => x.text) := List.mem_map_of_mem _ hb
    rw [repeating_per_claim]
    constructor
    · rintro ⟨-, -, -, h4⟩
      exact h4
    · intro h4
      exact ⟨hne, by omega, ht, h4⟩
  have part1 : ∀ b, b ∈ filter_header_footer_blocks blocks pageCount (12/100) (12/100) ↔
      b ∈ blocks ∧ ¬(repeating_per_claim blocks pageCount b.text ∧
        (b.bbox.y0 < 792 * (12/100) ∨ b.bbox.y1 > 792 * (1 - 12/100))) := by
    intro b
    match blocks, key with
    | [], _ => simp [filter_header_footer_blocks]
    | b0 :: bs, key =>
      rw [filter_hf_cons]
      by_cases hR : find_repeating_texts (b0 :: bs) pageCount (1/2) = []
      · rw [if_pos hR]
        constructor
        · intro hb
          refine ⟨hb, ?_⟩
          rintro ⟨hrep, -⟩
          have := (key b hb).mpr hrep
          rw [hR] at this
          exact absurd this (List.not_mem_nil _)
        · rintro ⟨hb, -⟩
          exact hb
      · rw [if_neg hR, List.mem_filter]
        simp only [decide_eq_true_eq]
        constructor
        · rintro ⟨hb, hp⟩
          exact ⟨hb, fun hc => hp ⟨(key b hb).mpr hc.1, hc.2⟩⟩
        · rintro ⟨hb, hp⟩
          exact ⟨hb, fun hc => hp ⟨(key b hb).mp hc.1, hc.2⟩⟩
  refine ⟨part1, ?_⟩
  intro b hb hlen
  have hnr : ¬ repeating_per_claim blocks pageCount b.text := by
    rw [repeating_per_claim, hlen]
    intro hle
    have h2 : (2 : Int) ≤ ((1 : Nat) : Int) := le_trans (le_max_left _ _) hle
    omega
  exact (part1 b).mpr ⟨hb, fun hc => hnr hc.1⟩

theorem C2_witness :
    bodyb ∈ filter_header_footer_blocks ex2 2 (12/100) (12/100) :=
  (C2_header_footer_filter ex2 2 (by decide)).2 bodyb (by decide) (by decide)

/-- C2 counterexample: with page count 0 the code's repeating set is
empty and nothing is removed, although the claim's repetition rule
(`max 2 ⌊0 * 0.5⌋ = 2` distinct pages) marks the text as repeating and
the block sits in the header band, so the claim as stated says it must
be removed. -/
theorem C2_counterexample :
    filter_header_footer_blocks cexH 0 (12/100) (12/100) = cexH ∧
    chb1 ∈ cexH ∧
    repeating_per_claim cexH 0 chb1.text ∧
    chb1.bbox.y0 < 792 * (12/100) := by
  have h0 : find_repeating_texts cexH 0 (1/2) = [] := by
    rw [find_repeating_texts]
    exact if_pos (Or.inr rfl)
  refine ⟨?_, by decide, ?_, by norm_num [chb1]⟩
  · rw [show cexH = chb1 :: [chb2] from rfl, filter_hf_cons]
    rw [show (chb1 :: [chb2]) = cexH from rfl, if_pos h0]
  · rw [repeating_per_claim,
      show (distinct_pages_of cexH chb1.text).length = 2 from by decide]
    norm_num

theorem splitBy_loop_acc {α : Type} (R : α → α → Bool) :
    ∀ (l : List α) (a : α) (g : List α) (gs : List (List α)),
      List.splitBy.loop R l a g gs = gs.reverse ++ List.splitBy.loop R l a g [] := by
  intro l
  induction l with
  | nil =>
    intro a g gs
    simp [List.splitBy.loop]
  | cons x xs ih =>
    intro a g gs
    rw [List.splitBy.loop, List.splitBy.loop]
    cases h : R a x with
    | true =>
      simp only [h]
      exact ih x (a :: g) gs
    | false =>
      simp only [h]
      rw [ih x [] ((a :: g).reverse :: gs), ih x [] [(a :: g).reverse]]
      simp

theorem join_with_space_two (t0 t1 : List Char) (ts : List (List Char)) :
    join_with_space (t0 :: t1 :: ts) = t0 ++ ' ' :: join_with_space (t1 :: ts) := rfl

theorem join_with_space_append_single :
    ∀ (ts : List (List Char)) (t : List Char), ts ≠ [] →
      join_with_space (ts ++ [t]) = join_with_space ts ++ ' ' :: t := by
  intro ts
  induction ts with
  | nil => intro t h; exact absurd rfl h
  | cons t0 ts ih =>
    intro t _
    cases ts with
    | nil => rfl
    | cons t1 ts' =>
      have h1 : join_with_space ((t0 :: t1 :: ts') ++ [t])
          = t0 ++ ' ' :: join_with_space ((t1 :: ts') ++ [t]) := rfl
      rw [h1, ih t (by simp), join_with_space_two]
      simp [List.append_assoc]

theorem block_of_run_append (run : List LineRec) (hrun : run ≠ []) (x : LineRec) :
    block_of_run (run ++ [x]) =
      ⟨(block_of_run run).text ++ ' ' :: x.text,
       rect_union (block_of_run run).bbox x.bbox,
       (block_of_run run).style⟩ := by
  match run, hrun with
  | l :: ls, _ =>
    have h1 : block_of_run ((l :: ls) ++ [x]) =
        ⟨join_with_space (((l :: ls) ++ [x]).map (fun y => y.text)),
         (ls ++ [x]).foldl (fun r y => rect_union r y.bbox) l.bbox,
         l.style⟩ := rfl
    rw [h1, block_of_run]
    have htext : join_with_space (((l :: ls) ++ [x]).map (fun y => y.text)) =
        join_with_space ((l :: ls).map (fun y => y.text)) ++ ' ' :: x.text := by
      rw [List.map_append]
      exact join_with_space_append_single _ _ (by simp)
    have hbox : (ls ++ [x]).foldl (fun r y => rect_union r y.bbox) l.bbox =
        rect_union (ls.foldl (fun r y => rect_union r y.bbox) l.bbox) x.bbox := by
      rw [List.foldl_append]
      rfl
    rw [htext, hbox]

theorem merge_loop_splitBy (th : ℚ) :
    ∀ (rest : List LineRec) (prev : LineRec) (g : List LineRec),
      merge_loop th rest prev (block_of_run (g.reverse ++ [prev])) =
        (List.splitBy.loop (fun a b => merge_cond th a b) rest prev g []).map block_of_run := by
  intro rest
  induction rest with
  | nil =>
    intro prev g
    rw [merge_loop, List.splitBy.loop]
    simp [← List.reverse_cons]
  | cons l rest ih =>
    intro prev g
    rw [merge_loop, List.splitBy.loop]
    cases h : merge_cond th prev l with
    | true =>
      simp only [h, if_pos]
      have habs : (⟨(block_of_run (g.reverse ++ [prev])).text ++ ' ' :: l.text,
          rect_union (block_of_run (g.reverse ++ [prev])).bbox l.bbox,
          (block_of_run (g.reverse ++ [prev])).style⟩ : MergedBlock) =
          block_of_run ((prev :: g).reverse ++ [l]) := by
        rw [List.reverse_cons,
          block_of_run_append (g.reverse ++ [prev]) (by simp) l]
      rw [habs]
      exact ih l (prev :: g)
    | false =>
      simp only [h, if_neg]
      rw [splitBy_loop_acc _ rest l [] [(prev :: g).reverse]]
      rw [List.map_append]
      have hone : merge_loop th rest l ⟨l.text, l.bbox, l.style⟩ =
          (List.splitBy.loop (fun a b => merge_cond th a b) rest l [] []).map block_of_run := by
        have : (⟨l.text, l.bbox, l.style⟩ : MergedBlock) =
            block_of_run (([] : List LineRec).reverse ++ [l]) := rfl
        rw [this]
        exact ih l []
      rw [hone]
      simp [← List.reverse_cons]

/-- C1: the block merger equals grouping the page's lines into maximal
runs of consecutive lines related by the merge condition (same style
tuple, top-edge minus previous bottom-edge strictly below the threshold,
and not a list item) — `List.splitBy` groups exactly while the relation
holds between the previous and the current line — and turning each run
into one block whose text joins the run's line texts with single spaces;
the trailing run always yields a final block.  This holds for every
threshold, in particular the default 4.0. -/
theorem C1_block_merger (th : ℚ) (lines : List LineRec) :
    merge_page_lines th lines =
      (lines.splitBy (fun a b => merge_cond th a b)).map block_of_run := by
  cases lines with
  | nil => rfl
  | cons l rest =>
    rw [merge_page_lines, List.splitBy]
    have : (⟨l.text, l.bbox, l.style⟩ : MergedBlock) =
        block_of_run (([] : List LineRec).reverse ++ [l]) := rfl
    rw [this]
    exact merge_loop_splitBy th rest l []

theorem no_double_space_cons {d : Char} {ds : List Char} :
    no_double_space (d :: ds) ↔
      (∀ y ∈ ds.head?, ¬(pySpace d = true ∧ pySpace y = true)) ∧ no_double_space ds := by
  unfold no_double_space
  exact List.chain'_cons'

theorem dropWhile_head_false (p : Char → Bool) (l : List Char) {c : Char}
    (h : (l.dropWhile p).head? = some c) : p c = false := by
  have hd := List.head?_dropWhile_not p l
  rw [h] at hd
  exact hd

theorem dropWhile_eq_self_of_head (p : Char → Bool) (l : List Char)
    (h : ∀ c, l.head? = some c → p c = false) : l.dropWhile p = l := by
  cases l with
  | nil => rfl
  | cons c cs => rw [List.dropWhile_cons_of_neg (by simp [h c rfl])]

theorem rstrip_append_eq (p : Char → Bool) (l : List Char) :
    rstrip p l ++ (l.reverse.takeWhile p).reverse = l := by
  rw [rstrip, ← List.reverse_append, List.takeWhile_append_dropWhile, List.reverse_reverse]

theorem rstrip_getLast_false (p : Char → Bool) (l : List Char) {c : Char}
    (h : (rstrip p l).getLast? = some c) : p c = false := by
  rw [rstrip, List.getLast?_reverse] at h
  exact dropWhile_head_false p l.reverse h

theorem rstrip_eq_self_of_getLast (p : Char → Bool) (l : List Char)
    (h : ∀ c, l.getLast? = some c → p c = false) : rstrip p l = l := by
  rw [rstrip, dropWhile_eq_self_of_head p l.reverse ?_, List.reverse_reverse]
  intro c hc
  rw [List.head?_reverse] at hc
  exact h c hc

theorem mem_of_mem_rstrip {p : Char → Bool} {l : List Char} {c : Char}
    (h : c ∈ rstrip p l) : c ∈ l := by
  rw [← rstrip_append_eq p l]
  exact List.mem_append_left _ h

theorem mem_of_mem_lstrip {p : Char → Bool} {l : List Char} {c : Char}
    (h : c ∈ lstrip p l) : c ∈ l := by
  rw [← List.takeWhile_append_dropWhile p l]
  exact List.mem_append_right _ h

theorem chain'_of_rstrip {R : Char → Char → Prop} {l : List Char} (p : Char → Bool)
    (h : List.Chain' R l) : List.Chain' R (rstrip p l) := by
  rw [← rstrip_append_eq p l] at h
  exact (List.chain'_append.mp h).1

theorem chain'_of_lstrip {R : Char → Char → Prop} {l : List Char} (p : Char → Bool)
    (h : List.Chain' R l) : List.Chain' R (lstrip p l) := by
  rw [← List.takeWhile_append_dropWhile p l] at h
  exact (List.chain'_append.mp h).2.1

theorem head_of_rstrip {p : Char → Bool} {l : List Char} {c : Char}
    (h : (rstrip p l).head? = some c) : l.head? = some c := by
  have heq := rstrip_append_eq p l
  match hr : rstrip p l with
  | [] => rw [hr] at h; simp at h
  | d :: ds =>
    rw [hr] at h heq
    rw [← heq]
    simpa using h

theorem strip_nonword_head {l : List Char} {c : Char}
    (h : (strip_nonword l).head? = some c) : pyWord c = true := by
  rw [strip_nonword] at h
  have h2 := head_of_rstrip h
  have h3 := dropWhile_head_false pyNonWord l h2
  rw [pyNonWord] at h3
  simpa using h3

theorem strip_nonword_getLast {l : List Char} {c : Char}
    (h : (strip_nonword l).getLast? = some c) : pyWord c = true := by
  rw [strip_nonword] at h
  have h3 := rstrip_getLast_false pyNonWord _ h
  rw [pyNonWord] at h3
  simpa using h3

theorem word_not_space {c : Char} (h : pyWord c = true) : pySpace c = false := by
  by_contra hs
  rw [Bool.not_eq_false, pySpace] at hs
  simp only [Bool.or_eq_true, beq_iff_eq] at hs
  rcases hs with ((((rfl | rfl) | rfl) | rfl) | rfl) | rfl <;> exact absurd h (by decide)

theorem collapse_aux_true_head :
    ∀ (l : List Char) {c : Char}, (collapseWsAux l true).head? = some c → pySpace c = false := by
  intro l
  induction l with
  | nil => intro c h; simp [collapseWsAux] at h
  | cons d ds ih =>
    intro c h
    rw [collapseWsAux] at h
    by_cases hd : pySpace d
    · rw [if_pos hd, if_pos rfl] at h
      exact ih h
    · rw [if_neg hd] at h
      obtain rfl : d = c := by simpa using h
      simpa using hd

theorem collapse_aux_norm : ∀ (l : List Char) (flag : Bool),
    (∀ c ∈ collapseWsAux l flag, pySpace c = true → c = ' ') ∧
    no_double_space (collapseWsAux l flag) := by
  intro l
  induction l with
  | nil =>
    intro flag
    exact ⟨by simp [collapseWsAux], by simp [collapseWsAux, no_double_space]⟩
  | cons d ds ih =>
    intro flag
    rw [collapseWsAux]
    by_cases hd : pySpace d
    · cases flag with
      | true =>
        rw [if_pos hd, if_pos rfl]
        exact ih true
      | false =>
        rw [if_pos hd, if_neg (by simp)]
        constructor
        · intro c hc hsp
          rcases List.mem_cons.mp hc with rfl | hc
          · rfl
          · exact (ih true).1 c hc hsp
        · rw [no_double_space_cons]
          refine ⟨?_, (ih true).2⟩
          intro y hy hcon
          have hns := collapse_aux_true_head ds (Option.mem_def.mp hy)
          rw [hcon.2] at hns
          exact absurd hns (by simp)
    · rw [if_neg hd]
      constructor
      · intro c hc hsp
        rcases List.mem_cons.mp hc with rfl | hc
        · exact absurd hsp hd
        · exact (ih false).1 c hc hsp
      · rw [no_double_space_cons]
        refine ⟨?_, (ih false).2⟩
        intro y _ hcon
        exact hd hcon.1

theorem collapse_aux_id : ∀ (l : List Char),
    (∀ c ∈ l, pySpace c = true → c = ' ') → no_double_space l →
    collapseWsAux l false = l := by
  intro l
  induction l with
  | nil => intro _ _; rfl
  | cons d ds ih =>
    intro hmem hch
    rw [collapseWsAux]
    by_cases hd : pySpace d
    · rw [if_pos hd, if_neg (by simp)]
      have hd' : d = ' ' := hmem d (List.mem_cons_self d ds) hd
      cases ds with
      | nil => simp [collapseWsAux, hd']
      | cons e es =>
        have he : pySpace e = false := by
          have h1 := (no_double_space_cons.mp hch).1 e (Option.mem_def.mpr rfl)
          cases hpe : pySpace e with
          | false => rfl
          | true => exact absurd ⟨hd, hpe⟩ h1
        have hds : collapseWsAux (e :: es) false = e :: es :=
          ih (fun c hc => hmem c (List.mem_cons_of_mem d hc))
            (no_double_space_cons.mp hch).2
        have h2 : collapseWsAux (e :: es) false = e :: collapseWsAux es false := by
          rw [collapseWsAux, if_neg (by simp [he])]
        rw [h2] at hds
        have h3 : collapseWsAux es false = es := by
          injection hds
        show ' ' :: collapseWsAux (e :: es) true = d :: e :: es
        rw [collapseWsAux, if_neg (by simp [he]), h3, hd']
    · rw [if_neg hd,
        ih (fun c hc => hmem c (List.mem_cons_of_mem d hc))
          (no_double_space_cons.mp hch).2]

theorem pstrip_eq_self {l : List Char}
    (hh : ∀ c, l.head? = some c → pySpace c = false)
    (hl : ∀ c, l.getLast? = some c → pySpace c = false) : pstrip l = l := by
  rw [pstrip, lstrip, dropWhile_eq_self_of_head _ _ hh, rstrip_eq_self_of_getLast _ _ hl]

theorem strip_nonword_eq_self {l : List Char}
    (hh : ∀ c, l.head? = some c → pyNonWord c = false)
    (hl : ∀ c, l.getLast? = some c → pyNonWord c = false) : strip_nonword l = l := by
  rw [strip_nonword, lstrip, dropWhile_eq_self_of_head _ _ hh, rstrip_eq_self_of_getLast _ _ hl]

theorem clean_text_props (t : List Char) :
    (∀ c, (clean_text t).head? = some c → pyWord c = true) ∧
    (∀ c, (clean_text t).getLast? = some c → pyWord c = true) ∧
    (∀ c ∈ clean_text t, pySpace c = true → c = ' ') ∧
    no_double_space (clean_text t) := by
  have hnorm := collapse_aux_norm (pstrip t) false
  refine ⟨?_, ?_, ?_, ?_⟩
  · intro c h
    rw [clean_text] at h
    exact strip_nonword_head h
  · intro c h
    rw [clean_text] at h
    exact strip_nonword_getLast h
  · intro c hc
    rw [clean_text, strip_nonword] at hc
    exact hnorm.1 c (mem_of_mem_lstrip (mem_of_mem_rstrip hc)) 
  · rw [clean_text, strip_nonword]
    exact chain'_of_rstrip _ (chain'_of_lstrip _ hnorm.2)

theorem clean_text_idem (t : List Char) : clean_text (clean_text t) = clean_text t := by
  obtain ⟨hh, hl, hsp, hch⟩ := clean_text_props t
  have h1 : pstrip (clean_text t) = clean_text t :=
    pstrip_eq_self (fun c hc => word_not_space (hh c hc))
      (fun c hc => word_not_space (hl c hc))
  have h2 : collapse_ws (clean_text t) = clean_text t := collapse_aux_id _ hsp hch
  have h3 : strip_nonword (clean_text t) = clean_text t := by
    apply strip_nonword_eq_self
    · intro c hc
      simp [pyNonWord, hh c hc]
    · intro c hc
      simp [pyNonWord, hl c hc]
  rw [show clean_text (clean_text t) =
    strip_nonword (collapse_ws (pstrip (clean_text t))) from rfl, h1, h2, h3]

theorem post_process_cons (b : BlockRec) (bs : List BlockRec) :
    post_process_blocks (b :: bs) =
      if clean_text b.text ≠ [] ∧ has_alpha (clean_text b.text) then
        { b with text := clean_text b.text } :: post_process_blocks bs
      else post_process_blocks bs := rfl

/-- C7: the text-cleanup step is idempotent — applying
`post_process_blocks` twice yields the same collection as applying it
once. -/
theorem C7_post_process_idempotent (blocks : List BlockRec) :
    post_process_blocks (post_process_blocks blocks) = post_process_blocks blocks := by
  induction blocks with
  | nil => rfl
  | cons b bs ih =>
    rw [post_process_cons]
    by_cases hk : clean_text b.text ≠ [] ∧ has_alpha (clean_text b.text)
    · rw [if_pos hk, post_process_cons]
      have htext : ({ b with text := clean_text b.text } : BlockRec).text =
          clean_text b.text := rfl
      rw [htext, clean_text_idem]
      rw [if_pos hk, ih]
    · rw [if_neg hk, ih]

/-- C8: every block surviving text cleanup has non-empty text containing
an ASCII letter, begins and ends with a word character (no leading or
trailing non-word characters), and has no whitespace run longer than a
single space; in particular no empty text reaches the Feature Engineer. -/
theorem C8_cleanup_output_invariants (blocks : List BlockRec) (b : BlockRec)
    (h : b ∈ post_process_blocks blocks) :
    b.text ≠ [] ∧ has_alpha b.text = true ∧
    (∀ c, b.text.head? = some c → pyWord c = true) ∧
    (∀ c, b.text.getLast? = some c → pyWord c = true) ∧
    no_double_space b.text := by
  induction blocks with
  | nil => exact absurd h (List.not_mem_nil b)
  | cons b0 bs ih =>
    rw [post_process_cons] at h
    by_cases hk : clean_text b0.text ≠ [] ∧ has_alpha (clean_text b0.text)
    · rw [if_pos hk] at h
      rcases List.mem_cons.mp h with rfl | h
      · obtain ⟨hh, hl, -, hch⟩ := clean_text_props b0.text
        have htext : ({ b0 with text := clean_text b0.text } : BlockRec).text =
            clean_text b0.text := rfl
        rw [htext]
        exact ⟨hk.1, hk.2, hh, hl, hch⟩
      · exact ih h
    · rw [if_neg hk] at h
      exact ih h

theorem C8_witness :
    ex8out.text ≠ [] ∧ has_alpha ex8out.text = true ∧
    (∀ c, ex8out.text.head? = some c → pyWord c = true) ∧
    (∀ c, ex8out.text.getLast? = some c → pyWord c = true) ∧
    no_double_space ex8out.text :=
  C8_cleanup_output_invariants [ex8blk] ex8out (by decide)
